import Mathlib

/-!
Shallow embedding of `src/informational_earth_likeness_score.py`.

The script's numeric values are modelled by exact rationals (`ℚ`) where the
source does exact-looking arithmetic (clipping, division by the maximum),
and by real numbers (`ℝ`) for the fractional power `** 0.25` in
`compute_IELS`, whose exact value is irrational.  Operations that raise in
Python (`np.max` on an empty array, `rng.random` on a negative length)
return `none`.
-/

namespace IELS

/-- The clipping floor `1e-15` used by `np.clip(x, 1e-15, None)` in `normalize`. -/
def eps : ℚ := 1 / 10 ^ 15

/-- Embeds `np.clip(x, 1e-15, None)`: every element is floored at `eps`. -/
def clip (x : List ℚ) : List ℚ := x.map (fun v => max eps v)

/-- Embeds `np.max`: maximum of a list, `none` on the empty list (where
`np.max` raises `ValueError`). -/
def listMax : List ℚ → Option ℚ
  | [] => none
  | a :: t => some (t.foldl max a)

/-- Embeds `normalize` from the source: clip the input at `eps`, then divide
every element by the maximum of the clipped list.  `none` exactly when the
input is empty (the `np.max` failure case). -/
def normalize (x : List ℚ) : Option (List ℚ) :=
  match listMax (clip x) with
  | none => none
  | some m => some ((clip x).map (fun v => v / m))

/-- Embeds `compute_IELS`: the geometric mean `(S*R*C*E) ** 0.25`.  The
Python literal `0.25` is exactly `1/4` in binary floating point. -/
noncomputable def compute_IELS (S R C E : ℝ) : ℝ := (S * R * C * E) ^ ((1 : ℝ) / 4)

/-- Draw `k` pseudo-random values from an abstract generator `step` starting
in state `s`, returning the drawn list and the final state.  `step` abstracts
one call of numpy's bit generator producing a value in `[0, 1)`. -/
def drawsN (step : ℕ → ℚ × ℕ) : ℕ → ℕ → List ℚ × ℕ
  | 0, s => ([], s)
  | k + 1, s =>
    let p := step s
    let q := drawsN step k p.2
    (p.1 :: q.1, q.2)

/-- Embeds `rng.random(n)` for an integer length `n`: numpy raises on a
negative length (`none`); otherwise it draws `n` values. -/
def draws (step : ℕ → ℚ × ℕ) (n : ℤ) (s : ℕ) : Option (List ℚ × ℕ) :=
  if n < 0 then none else some (drawsN step n.toNat s)

/-- Embeds `generate_random_system`.  `step` is the abstract pseudo-random
generator and `default_rng` maps a seed to an initial generator state
(abstracting `np.random.default_rng`).  The parameter `w` models the ambient
state of the process before the call; the source never reads it because it
seeds a fresh generator with the constant seed `42`.  The four sequences are
drawn and normalized in source order. -/
def generate_random_system (step : ℕ → ℚ × ℕ) (default_rng : ℕ → ℕ)
    (n : ℤ) (_w : ℕ) : Option (List ℚ × List ℚ × List ℚ × List ℚ) :=
  (draws step n (default_rng 42)).bind fun a =>
  (normalize a.1).bind fun S =>
  (draws step n a.2).bind fun b =>
  (normalize b.1).bind fun R =>
  (draws step n b.2).bind fun c =>
  (normalize c.1).bind fun C =>
  (draws step n c.2).bind fun d =>
  (normalize d.1).bind fun E =>
  some (S, R, C, E)

/-- Arithmetic mean of a list, embedding `ndarray.mean()`. -/
def mean (l : List ℚ) : ℚ := l.sum / l.length

/-- Embeds the `__main__` block's computation: generate the four sequences,
then score the four means.  `none` when generation fails. -/
noncomputable def run_pipeline (step : ℕ → ℚ × ℕ) (default_rng : ℕ → ℕ)
    (n : ℤ) (w : ℕ) : Option ℝ :=
  match generate_random_system step default_rng n w with
  | none => none
  | some (S, R, C, E) =>
      some (compute_IELS ((mean S : ℚ) : ℝ) ((mean R : ℚ) : ℝ)
        ((mean C : ℚ) : ℝ) ((mean E : ℚ) : ℝ))

/-! ### Helper lemmas about `listMax`, `clip` and `normalize` -/

lemma eps_pos : 0 < eps := by norm_num [eps]

lemma le_foldl_max (t : List ℚ) (a : ℚ) : a ≤ t.foldl max a := by
  induction t generalizing a with
  | nil => exact le_refl a
  | cons b t ih => exact le_trans (le_max_left a b) (ih (max a b))

lemma foldl_max_le (t : List ℚ) (a : ℚ) : ∀ v ∈ t, v ≤ t.foldl max a := by
  induction t generalizing a with
  | nil => intro v hv; cases hv
  | cons b t ih =>
    intro v hv
    rcases List.mem_cons.mp hv with h | h
    · subst h
      exact le_trans (le_max_right a v) (le_foldl_max t (max a v))
    · exact ih (max a b) v h

lemma foldl_max_mem (t : List ℚ) (a : ℚ) :
    t.foldl max a = a ∨ t.foldl max a ∈ t := by
  induction t generalizing a with
  | nil => exact Or.inl rfl
  | cons b t ih =>
    show t.foldl max (max a b) = a ∨ t.foldl max (max a b) ∈ b :: t
    rcases ih (max a b) with h | h
    · rcases max_choice a b with hab | hab
      · exact Or.inl (by rw [h, hab])
      · refine Or.inr ?_
        rw [h, hab]
        exact List.mem_cons_self b t
    · exact Or.inr (List.mem_cons_of_mem b h)

lemma listMax_mem {l : List ℚ} {m : ℚ} (h : listMax l = some m) : m ∈ l := by
  cases l with
  | nil => simp [listMax] at h
  | cons a t =>
    have hm : t.foldl max a = m := by simpa [listMax] using h
    rcases foldl_max_mem t a with h' | h'
    · rw [← hm, h']
      exact List.mem_cons_self a t
    · rw [← hm]
      exact List.mem_cons_of_mem a h'

lemma listMax_le {l : List ℚ} {m : ℚ} (h : listMax l = some m) :
    ∀ v ∈ l, v ≤ m := by
  cases l with
  | nil => simp [listMax] at h
  | cons a t =>
    have hm : t.foldl max a = m := by simpa [listMax] using h
    intro v hv
    rcases List.mem_cons.mp hv with h' | h'
    · rw [← hm, h']
      exact le_foldl_max t a
    · rw [← hm]
      exact foldl_max_le t a v h'

lemma listMax_of_ne_nil {l : List ℚ} (h : l ≠ []) : ∃ m, listMax l = some m := by
  cases l with
  | nil => exact absurd rfl h
  | cons a t => exact ⟨t.foldl max a, rfl⟩

lemma listMax_eq_one {l : List ℚ} (h1 : (1 : ℚ) ∈ l) (hle : ∀ v ∈ l, v ≤ 1) :
    listMax l = some 1 := by
  obtain ⟨m, hm⟩ := listMax_of_ne_nil (List.ne_nil_of_mem h1)
  have hmem := listMax_mem hm
  have : m = 1 := le_antisymm (hle m hmem) (listMax_le hm 1 h1)
  exact this ▸ hm

lemma clip_length (x : List ℚ) : (clip x).length = x.length := by
  simp [clip]

lemma mem_clip_ge {x : List ℚ} {v : ℚ} (h : v ∈ clip x) : eps ≤ v := by
  obtain ⟨u, _, hu⟩ := List.mem_map.mp h
  exact hu ▸ le_max_left eps u

lemma clip_ne_nil {x : List ℚ} (h : x ≠ []) : clip x ≠ [] := by
  cases x with
  | nil => exact absurd rfl h
  | cons a t => simp [clip]

/-- Core facts about a successful `normalize`: the divisor is the positive
maximum of the clipped input, and the output is the clipped input divided
pointwise by it. -/
lemma normalize_eq {x : List ℚ} (hx : x ≠ []) :
    ∃ m, listMax (clip x) = some m ∧ 0 < m ∧
      normalize x = some ((clip x).map (fun v => v / m)) := by
  obtain ⟨m, hm⟩ := listMax_of_ne_nil (clip_ne_nil hx)
  refine ⟨m, hm, lt_of_lt_of_le eps_pos (mem_clip_ge (listMax_mem hm)), ?_⟩
  simp [normalize, hm]

/-- Full output specification of a successful `normalize`: length is
preserved, every element is in `(0, 1]`, and the maximum is exactly `1`. -/
lemma normalize_out_spec {x y : List ℚ} (h : normalize x = some y) :
    y.length = x.length ∧ (∀ v ∈ y, 0 < v ∧ v ≤ 1) ∧ listMax y = some 1 := by
  have hx : x ≠ [] := by
    intro hnil
    subst hnil
    simp [normalize, clip, listMax] at h
  obtain ⟨m, hm, hmpos, hnorm⟩ := normalize_eq hx
  have hy : y = (clip x).map (fun v => v / m) := by
    have := hnorm.symm.trans h
    exact (Option.some_inj.mp this).symm
  subst hy
  have hbounds : ∀ v ∈ (clip x).map (fun v => v / m), 0 < v ∧ v ≤ 1 := by
    intro v hv
    obtain ⟨u, hu, huv⟩ := List.mem_map.mp hv
    have hu_pos : 0 < u := lt_of_lt_of_le eps_pos (mem_clip_ge hu)
    have hu_le : u ≤ m := listMax_le hm u hu
    constructor
    · exact huv ▸ div_pos hu_pos hmpos
    · exact huv ▸ (div_le_one hmpos).mpr hu_le
  refine ⟨by simp [clip_length], hbounds, ?_⟩
  apply listMax_eq_one
  · exact List.mem_map.mpr ⟨m, listMax_mem hm, div_self (ne_of_gt hmpos)⟩
  · intro v hv
    exact (hbounds v hv).2

lemma normalize_length {x y : List ℚ} (h : normalize x = some y) :
    y.length = x.length := (normalize_out_spec h).1

lemma normalize_of_ne_nil {x : List ℚ} (hx : x ≠ []) :
    ∃ y, normalize x = some y := by
  obtain ⟨m, _, _, hnorm⟩ := normalize_eq hx
  exact ⟨_, hnorm⟩

lemma normalize_eq_of_max {x : List ℚ} {m : ℚ} (hm : listMax (clip x) = some m) :
    normalize x = some ((clip x).map (fun v => v / m)) := by
  simp [normalize, hm]

/-! ### Claim theorems about `normalize` -/

/-- Claim C1: for every non-empty input, `normalize` succeeds, preserves the
length, its output's maximum is exactly `1`, and every output element lies
in `(0, 1]` (so in particular the minimum is positive). -/
theorem normalize_length_max_bounds (x : List ℚ) (hx : x ≠ []) :
    ∃ y, normalize x = some y ∧ y.length = x.length ∧
      listMax y = some 1 ∧ ∀ v ∈ y, 0 < v ∧ v ≤ 1 := by
  obtain ⟨y, hy⟩ := normalize_of_ne_nil hx
  obtain ⟨hlen, hbounds, hmax⟩ := normalize_out_spec hy
  exact ⟨y, hy, hlen, hmax, hbounds⟩

/-- Witness for C1 at the concrete input `[2, 1]`. -/
theorem normalize_length_max_bounds_witness :
    ∃ y, normalize [2, 1] = some y ∧ y.length = ([2, 1] : List ℚ).length ∧
      listMax y = some 1 ∧ ∀ v ∈ y, 0 < v ∧ v ≤ 1 :=
  normalize_length_max_bounds [2, 1] (by simp)

/-- Claim C7: on every non-empty input, including all-negative ones, the
divisor used by `normalize` is the maximum of the clipped list and is
strictly positive, so the division is by a positive number and `normalize`
is well-defined (returns `some`). -/
theorem normalize_no_div_by_zero (x : List ℚ) (hx : x ≠ []) :
    ∃ m, listMax (clip x) = some m ∧ 0 < m ∧
      normalize x = some ((clip x).map (fun v => v / m)) :=
  normalize_eq hx

/-- Witness for C7 at the all-nonpositive concrete input `[-3, 0]`. -/
theorem normalize_no_div_by_zero_witness :
    ∃ m, listMax (clip [-3, 0]) = some m ∧ 0 < m ∧
      normalize [-3, 0] = some ((clip [-3, 0]).map (fun v => v / m)) :=
  normalize_no_div_by_zero [-3, 0] (by simp)

/-- Claim C8: on a non-empty constant sequence (any sign, including zero and
negatives), `normalize` returns the all-ones sequence of the same shape. -/
theorem normalize_const (x : List ℚ) (a : ℚ) (hx : x ≠ [])
    (hconst : ∀ v ∈ x, v = a) :
    normalize x = some (x.map fun _ => (1 : ℚ)) := by
  obtain ⟨m, hm, hmpos, hnorm⟩ := normalize_eq hx
  have hclip : ∀ v ∈ clip x, v = max eps a := by
    intro v hv
    obtain ⟨u, hu, huv⟩ := List.mem_map.mp hv
    rw [← huv, hconst u hu]
  have hmval : m = max eps a := hclip m (listMax_mem hm)
  rw [hnorm]
  congr 1
  rw [clip]
  rw [List.map_map]
  apply List.map_congr_left
  intro u hu
  have : max eps u = max eps a := by rw [hconst u hu]
  simp only [Function.comp]
  rw [this, hmval, div_self (ne_of_gt (hmval ▸ hmpos))]

/-- Witness for C8 at the constant negative input `[-2, -2]`. -/
theorem normalize_const_witness :
    normalize [-2, -2] = some (([-2, -2] : List ℚ).map fun _ => (1 : ℚ)) := by
  have hconst : ∀ v ∈ ([-2, -2] : List ℚ), v = -2 := by
    intro v hv
    simp only [List.mem_cons, List.not_mem_nil, or_false] at hv
    rcases hv with rfl | rfl <;> rfl
  exact normalize_const [-2, -2] (-2) (by simp) hconst

/-- Counterexample to C5 as stated: normalizing `[1/10^16, 100]` produces
`[1/10^17, 1]`, whose first element fell below the clipping floor `1e-15`;
normalizing again re-floors it, so the result changes. -/
theorem normalize_not_idempotent :
    normalize [1 / 10 ^ 16, 100] = some [1 / 10 ^ 17, 1] ∧
      normalize [1 / 10 ^ 17, 1] ≠ some [1 / 10 ^ 17, 1] := by
  have hc1 : clip [1 / 10 ^ 16, 100] = [eps, 100] := by
    simp only [clip, List.map_cons, List.map_nil]
    rw [max_eq_left (by norm_num [eps]), max_eq_right (by norm_num [eps])]
  have hm1 : listMax (clip [1 / 10 ^ 16, 100]) = some 100 := by
    rw [hc1]
    simp only [listMax, List.foldl]
    rw [max_eq_right (by norm_num [eps])]
  have hc2 : clip [1 / 10 ^ 17, 1] = [eps, 1] := by
    simp only [clip, List.map_cons, List.map_nil]
    rw [max_eq_left (by norm_num [eps]), max_eq_right (by norm_num [eps])]
  have hm2 : listMax (clip [1 / 10 ^ 17, 1]) = some 1 := by
    rw [hc2]
    simp only [listMax, List.foldl]
    rw [max_eq_right (by norm_num [eps])]
  constructor
  · rw [normalize_eq_of_max hm1, hc1]
    simp only [List.map_cons, List.map_nil]
    norm_num [eps]
  · rw [normalize_eq_of_max hm2, hc2]
    simp only [List.map_cons, List.map_nil, Option.some.injEq, List.cons.injEq]
    norm_num [eps]

/-- Claim C5 (amended): `normalize` is idempotent on every output all of
whose elements are at least the clipping floor `eps = 1e-15`; outputs with
an element below the floor are changed by re-normalization. -/
theorem normalize_idempotent_above_eps (x y : List ℚ)
    (hx : normalize x = some y) (hy : ∀ v ∈ y, eps ≤ v) :
    normalize y = some y := by
  obtain ⟨_, _, hmax⟩ := normalize_out_spec hx
  have hclip : clip y = y := by
    rw [clip]
    have hmaxv : ∀ v ∈ y, max eps v = v := fun v hv => max_eq_right (hy v hv)
    rw [List.map_congr_left hmaxv]
    exact List.map_id' y
  rw [normalize, hclip, hmax]
  simp

/-- Witness for amended C5: `normalize [1, 2] = some [1/2, 1]`, all of whose
elements are at least `eps`, and re-normalizing leaves it unchanged. -/
theorem normalize_idempotent_above_eps_witness :
    normalize [1 / 2, 1] = some [1 / 2, 1] := by
  have hc : clip [1, 2] = [1, 2] := by
    simp only [clip, List.map_cons, List.map_nil]
    rw [max_eq_right (by norm_num [eps]), max_eq_right (by norm_num [eps])]
  have hm : listMax (clip [1, 2]) = some 2 := by
    rw [hc]
    simp only [listMax, List.foldl]
    rw [max_eq_right (by norm_num)]
  have hx : normalize [1, 2] = some [1 / 2, 1] := by
    rw [normalize_eq_of_max hm, hc]
    simp only [List.map_cons, List.map_nil]
    norm_num
  have hy : ∀ v ∈ ([1 / 2, 1] : List ℚ), eps ≤ v := by
    intro v hv
    simp only [List.mem_cons, List.not_mem_nil, or_false] at hv
    rcases hv with rfl | rfl <;> norm_num [eps]
  exact normalize_idempotent_above_eps [1, 2] [1 / 2, 1] hx hy

/-! ### Claim theorems about `compute_IELS` -/

/-- Claim C3: when all four inputs lie in `(0, 1]`, the score lies in
`(0, 1]`. -/
theorem compute_IELS_unit_interval (S R C E : ℝ)
    (hS0 : 0 < S) (hS1 : S ≤ 1) (hR0 : 0 < R) (hR1 : R ≤ 1)
    (hC0 : 0 < C) (hC1 : C ≤ 1) (hE0 : 0 < E) (hE1 : E ≤ 1) :
    0 < compute_IELS S R C E ∧ compute_IELS S R C E ≤ 1 := by
  have hp : 0 < S * R * C * E := by positivity
  have h2 : S * R ≤ 1 := mul_le_one₀ hS1 (le_of_lt hR0) hR1
  have h3 : S * R * C ≤ 1 := mul_le_one₀ h2 (le_of_lt hC0) hC1
  have hle : S * R * C * E ≤ 1 := mul_le_one₀ h3 (le_of_lt hE0) hE1
  constructor
  · exact Real.rpow_pos_of_pos hp _
  · exact Real.rpow_le_one (le_of_lt hp) hle (by norm_num)

/-- Witness for C3 at the concrete input `(1/2, 1/2, 1/2, 1/2)`. -/
theorem compute_IELS_unit_interval_witness :
    0 < compute_IELS (1 / 2) (1 / 2) (1 / 2) (1 / 2) ∧
      compute_IELS (1 / 2) (1 / 2) (1 / 2) (1 / 2) ≤ 1 :=
  compute_IELS_unit_interval (1 / 2) (1 / 2) (1 / 2) (1 / 2)
    (by norm_num) (by norm_num) (by norm_num) (by norm_num)
    (by norm_num) (by norm_num) (by norm_num) (by norm_num)

/-- Claim C4: if one input is exactly `0` and the rest are non-negative, the
score is exactly `0`; in particular `compute_IELS 0 1 1 1 = 0`. -/
theorem compute_IELS_zero_input (S R C E : ℝ)
    (h0 : S = 0 ∨ R = 0 ∨ C = 0 ∨ E = 0)
    (hS : 0 ≤ S) (hR : 0 ≤ R) (hC : 0 ≤ C) (hE : 0 ≤ E) :
    compute_IELS S R C E = 0 ∧ compute_IELS 0 1 1 1 = 0 := by
  have hquarter : ((1 : ℝ) / 4) ≠ 0 := by norm_num
  constructor
  · have hprod : S * R * C * E = 0 := by
      rcases h0 with h | h | h | h <;> simp [h]
    rw [compute_IELS, hprod]
    exact Real.zero_rpow hquarter
  · rw [compute_IELS, show (0 : ℝ) * 1 * 1 * 1 = 0 by ring]
    exact Real.zero_rpow hquarter

/-- Witness for C4 at the concrete input `(1, 0, 1, 1)`. -/
theorem compute_IELS_zero_input_witness :
    compute_IELS 1 0 1 1 = 0 ∧ compute_IELS 0 1 1 1 = 0 :=
  compute_IELS_zero_input 1 0 1 1 (Or.inr (Or.inl rfl))
    (by norm_num) (by norm_num) (by norm_num) (by norm_num)

/-- Claim C10: over non-negative inputs, `compute_IELS` is monotone
non-decreasing in each of its four argument positions. -/
theorem compute_IELS_monotone (S S' R C E : ℝ)
    (hS : 0 ≤ S) (hR : 0 ≤ R) (hC : 0 ≤ C) (hE : 0 ≤ E) (hSS : S ≤ S') :
    compute_IELS S R C E ≤ compute_IELS S' R C E ∧
      compute_IELS R S C E ≤ compute_IELS R S' C E ∧
      compute_IELS R C S E ≤ compute_IELS R C S' E ∧
      compute_IELS R C E S ≤ compute_IELS R C E S' := by
  have hq : (0 : ℝ) ≤ 1 / 4 := by norm_num
  have hdiff : 0 ≤ S' - S := sub_nonneg.mpr hSS
  have hrce : 0 ≤ R * C * E * (S' - S) :=
    mul_nonneg (mul_nonneg (mul_nonneg hR hC) hE) hdiff
  have key : ∀ p q : ℝ, 0 ≤ p → p ≤ q →
      p ^ ((1 : ℝ) / 4) ≤ q ^ ((1 : ℝ) / 4) :=
    fun p q hp hpq => Real.rpow_le_rpow hp hpq hq
  refine ⟨?_, ?_, ?_, ?_⟩
  · exact key _ _ (by positivity) (by nlinarith)
  · exact key _ _ (by positivity) (by nlinarith)
  · exact key _ _ (by positivity) (by nlinarith)
  · exact key _ _ (by positivity) (by nlinarith)

/-- Witness for C10 at `S = 0, S' = 1, R = C = E = 1`. -/
theorem compute_IELS_monotone_witness :
    compute_IELS 0 1 1 1 ≤ compute_IELS 1 1 1 1 ∧
      compute_IELS 1 0 1 1 ≤ compute_IELS 1 1 1 1 ∧
      compute_IELS 1 1 0 1 ≤ compute_IELS 1 1 1 1 ∧
      compute_IELS 1 1 1 0 ≤ compute_IELS 1 1 1 1 :=
  compute_IELS_monotone 0 1 1 1 1
    (by norm_num) (by norm_num) (by norm_num) (by norm_num) (by norm_num)

/-! ### Claim theorems about `generate_random_system` -/

lemma drawsN_fst_length (step : ℕ → ℚ × ℕ) (k s : ℕ) :
    ((drawsN step k s).1).length = k := by
  induction k generalizing s with
  | zero => rfl
  | succ k ih => simp [drawsN, ih]

lemma drawsN_fst_ne_nil (step : ℕ → ℚ × ℕ) (k s : ℕ) (hk : k ≠ 0) :
    (drawsN step k s).1 ≠ [] := by
  intro h
  have hl := drawsN_fst_length step k s
  rw [h] at hl
  exact hk hl.symm

/-- Claim C2: `generate_random_system` is deterministic — its output depends
only on the (hard-coded) seed, the generator and the length, never on the
ambient pseudo-random state of the process, because the source seeds a fresh
generator with the constant `42` on every call.  Two invocations therefore
return identical four-tuples. -/
theorem generate_random_system_deterministic (step : ℕ → ℚ × ℕ)
    (default_rng : ℕ → ℕ) (n : ℤ) (w1 w2 : ℕ) :
    generate_random_system step default_rng n w1 =
      generate_random_system step default_rng n w2 := rfl

/-- Counterexample to C6 as stated: with a pseudo-random generator that draws
the value `1/2` (which does lie in `[0, 1)`), the sequences returned by
`generate_random_system` at length `1` all contain the element `1`, which is
not `< 1` — the returned sequences are normalized, so their maximum is `1`. -/
theorem generate_element_eq_one :
    generate_random_system (fun s => (1 / 2, s + 1)) (fun _ => 0) 1 0 =
        some ([1], [1], [1], [1]) ∧
      (0 : ℚ) ≤ 1 / 2 ∧ (1 / 2 : ℚ) < 1 ∧ ¬ ((1 : ℚ) < 1) := by
  have hc : clip [1 / 2] = [1 / 2] := by
    simp only [clip, List.map_cons, List.map_nil]
    rw [max_eq_right (by norm_num [eps])]
  have hm : listMax (clip [1 / 2]) = some (1 / 2) := by
    rw [hc]
    rfl
  have hnorm : normalize [1 / 2] = some [1] := by
    rw [normalize_eq_of_max hm, hc]
    simp only [List.map_cons, List.map_nil]
    norm_num
  refine ⟨?_, by norm_num, by norm_num, by norm_num⟩
  simp only [generate_random_system, draws]
  norm_num [drawsN, hnorm]

/-- Claim C6 (amended): for every positive requested length, each of the four
returned sequences has that length and every element lies in `(0, 1]` (the
raw draws lie in `[0, 1)`, but the returned sequences are normalized, so
elements can equal `1`). -/
theorem generate_length_and_bounds (step : ℕ → ℚ × ℕ) (default_rng : ℕ → ℕ)
    (n : ℤ) (w : ℕ) (hn : 0 < n) :
    ∃ S R C E, generate_random_system step default_rng n w = some (S, R, C, E) ∧
      (S.length : ℤ) = n ∧ (R.length : ℤ) = n ∧
      (C.length : ℤ) = n ∧ (E.length : ℤ) = n ∧
      (∀ v ∈ S, 0 < v ∧ v ≤ 1) ∧ (∀ v ∈ R, 0 < v ∧ v ≤ 1) ∧
      (∀ v ∈ C, 0 < v ∧ v ≤ 1) ∧ (∀ v ∈ E, 0 < v ∧ v ≤ 1) := by
  have hnn : ¬ n < 0 := by omega
  have hk : n.toNat ≠ 0 := by omega
  have hcast : (n.toNat : ℤ) = n := Int.toNat_of_nonneg (le_of_lt hn)
  obtain ⟨S, hS⟩ :=
    normalize_of_ne_nil (drawsN_fst_ne_nil step n.toNat (default_rng 42) hk)
  obtain ⟨R, hR⟩ := normalize_of_ne_nil (drawsN_fst_ne_nil step n.toNat
    (drawsN step n.toNat (default_rng 42)).2 hk)
  obtain ⟨C, hC⟩ := normalize_of_ne_nil (drawsN_fst_ne_nil step n.toNat
    (drawsN step n.toNat (drawsN step n.toNat (default_rng 42)).2).2 hk)
  obtain ⟨E, hE⟩ := normalize_of_ne_nil (drawsN_fst_ne_nil step n.toNat
    (drawsN step n.toNat
      (drawsN step n.toNat (drawsN step n.toNat (default_rng 42)).2).2).2 hk)
  refine ⟨S, R, C, E, ?_, ?_, ?_, ?_, ?_,
    (normalize_out_spec hS).2.1, (normalize_out_spec hR).2.1,
    (normalize_out_spec hC).2.1, (normalize_out_spec hE).2.1⟩
  · simp only [generate_random_system, draws, if_neg hnn, Option.some_bind,
      hS, hR, hC, hE]
  · rw [normalize_length hS, drawsN_fst_length, hcast]
  · rw [normalize_length hR, drawsN_fst_length, hcast]
  · rw [normalize_length hC, drawsN_fst_length, hcast]
  · rw [normalize_length hE, drawsN_fst_length, hcast]

/-- Witness for amended C6 at length `1` with a concrete generator. -/
theorem generate_length_and_bounds_witness :
    ∃ S R C E,
      generate_random_system (fun s => (1 / 3, s + 1)) (fun _ => 0) 1 0 =
          some (S, R, C, E) ∧
        (S.length : ℤ) = 1 ∧ (R.length : ℤ) = 1 ∧
        (C.length : ℤ) = 1 ∧ (E.length : ℤ) = 1 ∧
        (∀ v ∈ S, 0 < v ∧ v ≤ 1) ∧ (∀ v ∈ R, 0 < v ∧ v ≤ 1) ∧
        (∀ v ∈ C, 0 < v ∧ v ≤ 1) ∧ (∀ v ∈ E, 0 < v ∧ v ≤ 1) :=
  generate_length_and_bounds (fun s => (1 / 3, s + 1)) (fun _ => 0) 1 0
    (by norm_num)

/-- Claim C9: the length parameter is not validated; for a zero or negative
length the generation step itself fails (`generate_random_system` returns
`none`), and the whole pipeline propagates that failure to the caller
without recovery. -/
theorem generate_fails_nonpositive_length (step : ℕ → ℚ × ℕ)
    (default_rng : ℕ → ℕ) (n : ℤ) (w : ℕ) (hn : n ≤ 0) :
    generate_random_system step default_rng n w = none ∧
      run_pipeline step default_rng n w = none := by
  have hgen : generate_random_system step default_rng n w = none := by
    rcases lt_or_eq_of_le hn with hlt | heq
    · simp [generate_random_system, draws, if_pos hlt]
    · subst heq
      simp [generate_random_system, draws, drawsN, normalize, clip, listMax]
  exact ⟨hgen, by simp [run_pipeline, hgen]⟩

/-- Witness for C9 at length `0` with a concrete generator. -/
theorem generate_fails_nonpositive_length_witness :
    generate_random_system (fun s => (0, s)) (fun s => s) 0 0 = none ∧
      run_pipeline (fun s => (0, s)) (fun s => s) 0 0 = none :=
  generate_fails_nonpositive_length (fun s => (0, s)) (fun s => s) 0 0
    (by norm_num)

end IELS
